import Mathlib

/-!
Verification development for the spectral-diarization pipeline of
recipes/AMI/Diarization/sd.py (speechbrain AMI diarization recipe).

Conventions of the shallow embedding:
* floating-point times and matrix entries are modelled as exact rationals;
* matrices are lists of rows (numpy arrays), `entry M i j` reads with default 0;
* the external eigensolver (scipy eigsh) and Laplacian routine
  (scipy csgraph_laplacian) are oracle parameters of the embedding functions,
  since only the glue logic around them lives in the repository;
* utility functions of the repository's diarization helper module that are not
  part of the given source tree (merge, overlap distribution, sign flip,
  connectivity test, set_diag) are modelled from the spec, as marked;
* Python exceptions are an explicit error type, mapped to the spec taxonomy.
-/

/-- Error taxonomy of the pipeline (spec section 7): `config` stands for
ConfigurationError (invalid k or neighbor count, too few segments), `data` for
DataError, `numerical` for numerical failures of the eigensolver. -/
inductive Err where
  | config : String → Err
  | data : String → Err
  | numerical : String → Err
deriving DecidableEq

/-- Matrix as a list of rows of rationals (numpy 2-d array). -/
abbrev Mat := List (List ℚ)

/-- One diarization entry or turn: recording id, start and end time in seconds
(modelled as exact rationals), speaker id.  This is the shape of the 4-lists
`[rec_id, sseg_start, sseg_end, spkr_id]` built in do_spec_clustering. -/
structure Turn where
  recId : String
  start : ℚ
  stop : ℚ
  spkr : String
deriving DecidableEq

/-- Entry (i, j) of a list-of-rows matrix, default 0 outside the stored area. -/
def entry (M : Mat) (i j : ℕ) : ℚ :=
  (M.getD i []).getD j 0

/-- Transpose of a list-of-rows matrix (numpy `.T`); faithful on rectangular
arrays, which is the only way it is applied. -/
def tr (M : Mat) : Mat :=
  (List.range (M.headD []).length).map fun j => M.map fun r => r.getD j 0

/-- Elementwise sum of two matrices (numpy `+` on equal-shape arrays). -/
def matAdd (M N : Mat) : Mat :=
  List.zipWith (List.zipWith (· + ·)) M N

/-- Scalar multiple of a matrix (numpy scalar `*`). -/
def smul (c : ℚ) (M : Mat) : Mat :=
  M.map (List.map (fun x => c * x))

/-- Elementwise negation, `laplacian *= -1`. -/
def matNegM (M : Mat) : Mat :=
  M.map (List.map (fun x => -x))

/-- Replace the diagonal of a matrix by a constant. -/
def mapDiag (M : Mat) (v : ℚ) : Mat :=
  M.enum.map fun p => p.2.enum.map fun q => if p.1 = q.1 then v else q.2

/-- Squared Euclidean distance between two embedding vectors. -/
def sqDist (x y : List ℚ) : ℚ :=
  (List.zipWith (fun a b => (a - b) ^ 2) x y).sum

/-! ## Segment reconciliation (diar.merge_ssegs_same_speaker / distribute_overlap) -/

/-- Loop body of the pass-1 merge: `cur` is the turn being grown. -/
def mergeGo (cur : Turn) : List Turn → List Turn
  | [] => [cur]
  | t2 :: rest =>
    if cur.spkr = t2.spkr ∧ t2.start ≤ cur.stop then
      mergeGo { cur with start := min cur.start t2.start, stop := max cur.stop t2.stop } rest
    else
      cur :: mergeGo t2 rest

/-- Modelled from the spec: `diar.merge_ssegs_same_speaker` (not in the given
source tree).  Pass 1 of the SegmentReconciler: scan the entries sorted by
start, and whenever consecutive entries share a speaker id and touch or overlap
(boundary adjacency or minor overlap), merge them into one turn spanning
`[min start, max end]`. -/
def merge_ssegs_same_speaker : List Turn → List Turn
  | [] => []
  | t :: rest => mergeGo t rest

/-- Loop body of the pass-2 overlap distribution: `cur` is the pending turn. -/
def distGo (cur : Turn) : List Turn → List Turn
  | [] => [cur]
  | t2 :: rest =>
    if t2.start < cur.stop then
      { cur with stop := (t2.start + cur.stop) / 2 } ::
        distGo { t2 with start := (t2.start + cur.stop) / 2 } rest
    else
      cur :: distGo t2 rest

/-- Modelled from the spec: `diar.distribute_overlap` (not in the given source
tree).  Pass 2 of the SegmentReconciler: for each adjacent pair `(T1, T2)` with
`T2.start < T1.end`, compute the midpoint `m = (T2.start + T1.end) / 2` and
truncate `T1.end = m`, `T2.start = m`; non-overlapping adjacent turns are left
untouched. -/
def distribute_overlap : List Turn → List Turn
  | [] => []
  | t :: rest => distGo t rest

/-- Steps (i) and (ii) of do_spec_clustering after sorting: merge same-speaker
sub-segments, then distribute the duration of adjacent overlapping
sub-segments of different speakers. -/
def reconcile (lol : List Turn) : List Turn :=
  distribute_overlap (merge_ssegs_same_speaker lol)

/-- Positive-duration condition on every turn of a list. -/
def posDur (l : List Turn) : Prop :=
  ∀ t ∈ l, t.start < t.stop

/-! ## Affinity graph construction (Spec_Cluster.perform_sc) -/

/-- Lexicographic comparison of (squared distance, index) keys: this is the
neighbor ordering of a nearest-neighbor query with ties broken by index. -/
def keyLt (a b : ℚ × ℕ) : Prop :=
  a.1 < b.1 ∨ (a.1 = b.1 ∧ a.2 < b.2)

instance (a b : ℚ × ℕ) : Decidable (keyLt a b) := by
  unfold keyLt; infer_instance

/-- Neighbor-query key of candidate j for query point i. -/
def knnKey (X : Mat) (i j : ℕ) : ℚ × ℕ :=
  (sqDist (X.getD i []) (X.getD j []), j)

/-- Candidate neighbor indices of point i (all points, minus i itself unless
`include_self`). -/
def knnCands (n : ℕ) (includeSelf : Bool) (i : ℕ) : List ℕ :=
  (List.range n).filter fun j => includeSelf || decide (j ≠ i)

/-- Whether j is among the `k` nearest candidates of i: fewer than `k`
candidates have a strictly smaller (distance, index) key. -/
def isNeighbor (X : Mat) (includeSelf : Bool) (k i j : ℕ) : Bool :=
  decide (j ∈ knnCands X.length includeSelf i) &&
    decide (((knnCands X.length includeSelf i).filter
      fun j2 => decide (keyLt (knnKey X i j2) (knnKey X i j))).length < k)

/-- Model of sklearn.neighbors.kneighbors_graph in connectivity mode: the
directed k-nearest-neighbor 0/1 adjacency over the rows of X under Euclidean
distance (ties broken by index). -/
def kneighbors_graph (X : Mat) (k : ℕ) (includeSelf : Bool) : Mat :=
  (List.range X.length).map fun i =>
    (List.range X.length).map fun j =>
      if isNeighbor X includeSelf k i j then (1 : ℚ) else 0

/-- Symmetrized affinity of Spec_Cluster.perform_sc:
`self.affinity_matrix_ = 0.5 * (connectivity + connectivity.T)`. -/
def affinityOf (X : Mat) (k : ℕ) (includeSelf : Bool) : Mat :=
  smul (1 / 2) (matAdd (kneighbors_graph X k includeSelf) (tr (kneighbors_graph X k includeSelf)))

/-- Affinity construction step of Spec_Cluster.perform_sc including the
argument validation performed by sklearn's neighbor query: it raises unless
`0 < n_neighbors` and there are at least `n_neighbors` candidate neighbors per
point (`n_neighbors <= N - 1` when the point itself is excluded,
`n_neighbors <= N` when included). -/
def perform_sc_affinity (X : Mat) (n_neighbors : ℕ) (includeSelf : Bool) : Except Err Mat :=
  if n_neighbors < 1 then
    Except.error (Err.config "Expected n_neighbors > 0")
  else if (if includeSelf then X.length < n_neighbors else X.length < n_neighbors + 1) then
    Except.error (Err.config "Expected n_neighbors to be at most the number of available samples")
  else
    Except.ok (affinityOf X n_neighbors includeSelf)

/-! ## k-means cluster assignment (sklearn.cluster._kmeans.k_means) -/

/-- Accumulator step for the index of the first minimum of a list. -/
def argminIdxAux : List ℚ → ℕ → ℕ × ℚ → ℕ × ℚ
  | [], _, b => b
  | d :: rest, i, b => argminIdxAux rest (i + 1) (if d < b.2 then (i, d) else b)

/-- Index of the first minimum of a list of rationals (0 on the empty list). -/
def argminIdx (ds : List ℚ) : ℕ :=
  match ds with
  | [] => 0
  | d :: rest => (argminIdxAux rest 1 (0, d)).1

/-- Left rotation of a list (used to model an RNG-dependent choice of initial
centroid indices). -/
def rotl (l : List ℕ) (n : ℕ) : List ℕ :=
  l.drop (n % l.length) ++ l.take (n % l.length)

/-- Modelled from the spec: sklearn's `k_means` (centroid partitioning with
`n_init` random initializations, lowest inertia kept, labels in `[0, k)`),
called by spectral_clustering_sb.  The random state is modelled as a natural
number that the call consumes and advances; the initial centroids are data
points selected by rotating the index list by the state, followed by a Lloyd
assignment step (each point labelled by its nearest centroid).  It fails with
the ConfigurationError of the spec taxonomy (sklearn ValueError) when
`n_clusters` exceeds the number of points or is zero. -/
def k_means (points : Mat) (n_clusters : ℕ) (rng : ℕ) : Except Err (List ℕ) × ℕ :=
  if n_clusters = 0 ∨ points.length < n_clusters then
    (Except.error (Err.config "n_samples should be >= n_clusters"), rng)
  else
    let idxs := (rotl (List.range points.length) (rng % points.length)).take n_clusters
    let centroids := idxs.map fun i => points.getD i []
    let labels := points.map fun p => argminIdx (centroids.map fun c => sqDist p c)
    (Except.ok labels, rng + 10)

/-! ## Spectral embedding (spectral_embedding_sb) -/

/-- Modelled from the spec: `diar.graph_is_connected` (not in the given source
tree) — whether every node of the affinity graph is reachable from node 0
through nonzero entries. -/
def expandOnce (A : Mat) (s : List ℕ) : List ℕ :=
  (List.range A.length).filter fun j =>
    decide (j ∈ s) || s.any fun i => decide (entry A i j ≠ 0)

/-- Modelled from the spec: connectivity test of the affinity graph, true iff
the graph is fully connected (every node reachable from node 0). -/
def graph_is_connected (A : Mat) : Bool :=
  (List.range A.length).all fun j => decide (j ∈ (expandOnce A)^[A.length] [0])

/-- Modelled from the spec: `diar.set_diag` (not in the given source tree) —
replaces the Laplacian's diagonal with the constant in the normalized case; in
the unnormalized case the diagonal of the combinatorial Laplacian already
equals the node degree, so it is returned unchanged. -/
def set_diag (L : Mat) (v : ℚ) (normed : Bool) : Mat :=
  if normed then mapDiag L v else L

/-- Python slice `l[k::-1]`: elements from index k (clamped) down to 0. -/
def pyRevSliceFrom (k : ℕ) (l : Mat) : Mat :=
  (l.take (k + 1)).reverse

/-- Numpy broadcast division `embedding / dd`: each row divided elementwise by
the vector dd. -/
def divRows (E : Mat) (dd : List ℚ) : Mat :=
  E.map fun r => List.zipWith (· / ·) r dd

/-- Sign of a rational (numpy sign). -/
def sgn (q : ℚ) : ℚ :=
  if q < 0 then -1 else if q = 0 then 0 else 1

/-- Largest-magnitude entry of a row, first occurrence (numpy argmax of abs). -/
def maxAbsEntry (r : List ℚ) : ℚ :=
  r.foldl (fun b x => if |x| > |b| then x else b) 0

/-- Modelled from the spec: `diar.deterministic_vector_sign_flip` (not in the
given source tree) — each row (eigenvector) is multiplied by the sign of its
largest-magnitude entry, forcing that entry positive so the representation is
reproducible. -/
def deterministic_vector_sign_flip (E : Mat) : Mat :=
  E.map fun r => r.map fun x => sgn (maxAbsEntry r) * x

/-- Shallow embedding of spectral_embedding_sb (sd.py lines 147-189).  The
scipy routines are oracle parameters: `lapF` stands for
`scipy.sparse.csgraph.laplacian` with `return_diag=True` and returns the
Laplacian and its diagonal vector, `eigshF` stands for
`scipy.sparse.linalg.eigsh` with `sigma=1.0, which="LM"` and returns the
eigenvalues and the N-by-k eigenvector matrix (diffusion map).  The embedding
makes explicit the argument check of eigsh (`0 < k < N`, otherwise a
ValueError) and returns the emitted warning flag alongside the result. -/
def spectral_embedding_sb (lapF : Mat → Bool → Mat × List ℚ)
    (eigshF : Mat → ℕ → List ℚ × Mat) (adjacency : Mat)
    (n_components : ℕ) (norm_laplacian : Bool) (drop_first : Bool) :
    Bool × Except Err Mat :=
  let k := if drop_first then n_components + 1 else n_components
  let warned := ! graph_is_connected adjacency
  let ld := lapF adjacency norm_laplacian
  let laplacian := matNegM (set_diag ld.1 1 norm_laplacian)
  if 0 < k ∧ k < laplacian.length then
    let diffusion_map := (eigshF laplacian k).2
    let embedding := pyRevSliceFrom k (tr diffusion_map)
    let embedding2 := if norm_laplacian then divRows embedding ld.2 else embedding
    let embedding3 := deterministic_vector_sign_flip embedding2
    if drop_first then
      (warned, Except.ok (tr ((embedding3.take k).drop 1)))
    else
      (warned, Except.ok (tr (embedding3.take k)))
  else
    (warned, Except.error (Err.numerical "eigsh requires 0 < k < N"))

/-- Shallow embedding of spectral_clustering_sb (sd.py lines 192-214) as called
from Spec_Cluster.perform_sc: `random_state` is NOT passed by the caller, so
`diar.check_random_state(None)` yields the ambient global numpy random state,
modelled as the threaded natural number `rng`; `n_components` defaults to
`n_clusters` and `drop_first=False`. -/
def spectral_clustering_sb (lapF : Mat → Bool → Mat × List ℚ)
    (eigshF : Mat → ℕ → List ℚ × Mat) (affinity : Mat) (n_clusters : ℕ)
    (rng : ℕ) : Except Err (List ℕ) × ℕ :=
  match (spectral_embedding_sb lapF eigshF affinity n_clusters true false).2 with
  | Except.error e => (Except.error e, rng)
  | Except.ok maps => k_means maps n_clusters rng

/-! ## Label-to-boundary conversion and the full pipeline (do_spec_clustering) -/

/-- Split of a character list at every occurrence of a separator character,
carrying an accumulator of the current (reversed) piece: the behavior of
Python str.split with a one-character separator. -/
def splitOnCharAux (c : Char) : List Char → List Char → List (List Char)
  | [], acc => [acc.reverse]
  | x :: xs, acc =>
    if x = c then acc.reverse :: splitOnCharAux c xs []
    else splitOnCharAux c xs (x :: acc)

/-- Python `s.split(sep)` for a one-character separator, over strings. -/
def splitOnChar (c : Char) (s : String) : List String :=
  (splitOnCharAux c s.toList []).map fun cs => String.mk cs

/-- Python `s.rsplit("_", 2)`: split on underscore from the right, at most
twice, so all but the last two fields stay joined. -/
def pyRsplit2 (s : String) : List String :=
  let parts := splitOnChar '_' s
  if parts.length ≤ 3 then parts
  else
    String.intercalate "_" (parts.take (parts.length - 2)) :: parts.drop (parts.length - 2)

/-- Digits of a decimal string to a natural number (no validation, as only
applied to well-formed literals). -/
def digitsToNat (cs : List Char) : ℕ :=
  cs.foldl (fun n c => n * 10 + (c.toNat - 48)) 0

/-- Model of Python `float()` on well-formed decimal literals, as exact
rationals. -/
def parseDecimal (s : String) : ℚ :=
  let cs := s.toList
  let neg := cs.headD ' ' == '-'
  let cs2 := if neg then cs.drop 1 else cs
  let q : ℚ :=
    match splitOnCharAux '.' cs2 [] with
    | [a] => (digitsToNat a : ℚ)
    | [a, b] => (digitsToNat a : ℚ) + (digitsToNat b : ℚ) / 10 ^ b.length
    | _ => 0
  if neg then -q else q

/-- Loop body of the label-to-boundary conversion of do_spec_clustering (sd.py
lines 235-246): the running `rid` is the Python variable `rec_id`, reassigned
on EVERY iteration from `sub_seg.rsplit("_", 2)[0]`; the speaker id of each
entry is built from the value `rec_id` held BEFORE that reassignment. -/
def labelsGo (rid : String) : List (ℕ × String) → List Turn
  | [] => []
  | p :: rest =>
    let spkr_id := rid ++ "_" ++ toString p.1
    let splitted := pyRsplit2 p.2
    let rid2 := splitted.headD ""
    { recId := rid2, start := parseDecimal (splitted.getD 1 ""),
      stop := parseDecimal (splitted.getD 2 ""), spkr := spkr_id } :: labelsGo rid2 rest

/-- Conversion of per-segment labels and sub-segment identifiers to boundary
entries, threading the reassigned recording id. -/
def labelsToBoundaries (rid : String) (labels : List ℕ) (subsegs : List String) : List Turn :=
  labelsGo rid (labels.zip subsegs)

/-- Stable insertion into a list sorted by start time (equal keys keep the
earlier element first, matching Python's stable sort). -/
def insertByStart (t : Turn) : List Turn → List Turn
  | [] => [t]
  | h :: l => if h.start < t.start then h :: insertByStart t l else t :: h :: l

/-- Stable sort by start time, `lol.sort(key=lambda x: float(x[1]))`. -/
def sortByStart (l : List Turn) : List Turn :=
  l.foldr insertByStart []

/-- Shallow embedding of do_spec_clustering (sd.py lines 217-260) minus the
RTTM file write: affinity construction (perform_sc), spectral clustering,
label-to-boundary conversion, sorting, merging and overlap distribution.  The
`seed` argument is the `random_state=params["seed"]` passed to the
Spec_Cluster constructor; faithful to the source, it is stored but never
forwarded to spectral_clustering_sb, whose k-means therefore consumes the
ambient global random state `rng`. -/
def do_spec_clustering (lapF : Mat → Bool → Mat × List ℚ)
    (eigshF : Mat → ℕ → List ℚ × Mat) (X : Mat) (subsegs : List String)
    (rec_id : String) (k : ℕ) (seed : ℕ) (n_neighbors : ℕ) (includeSelf : Bool)
    (rng : ℕ) : Except Err (List Turn) × ℕ :=
  match perform_sc_affinity X n_neighbors includeSelf with
  | Except.error e => (Except.error e, rng)
  | Except.ok aff =>
    match spectral_clustering_sb lapF eigshF aff k rng with
    | (Except.error e, rng2) => (Except.error e, rng2)
    | (Except.ok labels, rng2) =>
      let lol := labelsToBoundaries rec_id labels subsegs
      (Except.ok (reconcile (sortByStart lol)), rng2)

/-- Boolean test that an Except value is the error case. -/
def isErr {α : Type} (e : Except Err α) : Bool :=
  match e with
  | Except.error _ => true
  | Except.ok _ => false

/-! ## Concrete instances used by counterexamples and witnesses -/

/-- Test oracle for the Laplacian routine: returns the matrix unchanged and an
all-ones diagonal vector. -/
def lapTest (A : Mat) (_normed : Bool) : Mat × List ℚ :=
  (A, List.replicate A.length 1)

/-- Test oracle for eigsh on the 3-node example: a fixed 3-by-2 diffusion map
whose induced spectral points form two well-separated groups. -/
def eigshTest (_L : Mat) (k : ℕ) : List ℚ × Mat :=
  (List.replicate k 0, [[0, 0], [1, 10], [2, 10]])

/-- Three 1-dimensional embeddings used as a concrete recording. -/
def X1 : Mat := [[0], [1], [2]]

/-- Sub-segment identifiers of the concrete recording. -/
def subs1 : List String := ["rec_0_1", "rec_1_2", "rec_2_3"]

/-- Entry list with a long first segment containing a later short one:
a containment pattern that defeats midpoint overlap distribution. -/
def containEx : List Turn :=
  [⟨"r", 0, 10, "A"⟩, ⟨"r", 1, 2, "B"⟩, ⟨"r", 3, 4, "C"⟩]

/-- The overlapping pair of the spec's midpoint example. -/
def midEx : List Turn :=
  [⟨"r", 0, 2, "spkrA"⟩, ⟨"r", 1, 3, "spkrB"⟩]

/-- Adjacent-merge scenario of the spec. -/
def adjEx : List Turn :=
  [⟨"r", 0, 1, "spkrA"⟩, ⟨"r", 1, 2, "spkrA"⟩, ⟨"r", 2, 3, "spkrB"⟩]

/-! ## Reconciliation lemmas -/

theorem distGo_head (cur : Turn) (l : List Turn) :
    ∃ h tl, distGo cur l = h :: tl ∧ h.start = cur.start := by
  cases l with
  | nil => exact ⟨cur, [], rfl, rfl⟩
  | cons t2 rest =>
    by_cases hov : t2.start < cur.stop
    · refine ⟨{ cur with stop := (t2.start + cur.stop) / 2 },
        distGo { t2 with start := (t2.start + cur.stop) / 2 } rest, ?_, rfl⟩
      simp [distGo, hov]
    · refine ⟨cur, distGo t2 rest, ?_, rfl⟩
      simp [distGo, hov]

theorem distGo_invariant : ∀ (l : List Turn) (cur : Turn),
    cur.start < cur.stop →
    List.Chain' (fun a b => a.start < b.start) l →
    (∀ t ∈ l.take 1, cur.stop ≤ t.stop) →
    List.Chain' (fun a b => a.stop ≤ b.stop) l →
    posDur l →
    (∀ t ∈ l.take 1, 2 * cur.start < t.start + cur.stop) →
    List.Chain' (fun a b => a.stop ≤ b.start) (distGo cur l) ∧ posDur (distGo cur l) := by
  intro l
  induction l with
  | nil =>
    intro cur h1 _ _ _ _ _
    refine ⟨by simp [distGo], ?_⟩
    intro t ht
    simp [distGo] at ht
    simpa [ht] using h1
  | cons t2 rest ih =>
    intro cur h1 h2 h3a h3b h4 h5
    have hst2 : t2.start < t2.stop := h4 t2 (by simp)
    have hse : cur.stop ≤ t2.stop := h3a t2 (by simp)
    have hrest_sorted : List.Chain' (fun a b => a.start < b.start) rest := h2.tail
    have hrest_ends : List.Chain' (fun a b => a.stop ≤ b.stop) rest := h3b.tail
    have hrest_dur : posDur rest := fun t ht => h4 t (by simp [ht])
    by_cases hov : t2.start < cur.stop
    · have hmid : 2 * cur.start < t2.start + cur.stop := h5 t2 (by simp)
      set m : ℚ := (t2.start + cur.stop) / 2 with hm
      have hcm : cur.start < m := by rw [hm]; linarith
      have hmt : m < t2.stop := by rw [hm]; linarith
      have ihres := ih { t2 with start := m } hmt hrest_sorted
        (fun t ht => by
          cases rest with
          | nil => simp at ht
          | cons t3 rest2 =>
            simp at ht
            subst ht
            exact le_trans (le_of_eq rfl) ((List.chain'_cons.mp h3b).1))
        hrest_ends hrest_dur
        (fun t ht => by
          cases rest with
          | nil => simp at ht
          | cons t3 rest2 =>
            simp at ht
            subst ht
            have h23 : t2.start < t.start := (List.chain'_cons.mp h2).1
            show 2 * m < t.start + t2.stop
            rw [hm]; linarith)
      obtain ⟨hc, hp⟩ := ihres
      obtain ⟨hh, htl, heq, hhs⟩ := distGo_head { t2 with start := m } rest
      constructor
      · show List.Chain' _ (distGo cur (t2 :: rest))
        simp only [distGo, if_pos hov]
        rw [heq]
        rw [heq] at hc
        exact List.chain'_cons.mpr ⟨by simp [hhs, hm], hc⟩
      · intro t ht
        simp only [distGo, if_pos hov] at ht
        rcases List.mem_cons.mp ht with h | h
        · subst h; simpa using hcm
        · exact hp t h
    · have hle : cur.stop ≤ t2.start := le_of_not_lt hov
      have ihres := ih t2 hst2 hrest_sorted
        (fun t ht => by
          cases rest with
          | nil => simp at ht
          | cons t3 rest2 =>
            simp at ht; subst ht
            exact (List.chain'_cons.mp h3b).1)
        hrest_ends hrest_dur
        (fun t ht => by
          cases rest with
          | nil => simp at ht
          | cons t3 rest2 =>
            simp at ht; subst ht
            have h23 : t2.start < t.start := (List.chain'_cons.mp h2).1
            linarith)
      obtain ⟨hc, hp⟩ := ihres
      obtain ⟨hh, htl, heq, hhs⟩ := distGo_head t2 rest
      constructor
      · show List.Chain' _ (distGo cur (t2 :: rest))
        simp only [distGo, if_neg hov]
        rw [heq]
        rw [heq] at hc
        exact List.chain'_cons.mpr ⟨by rw [hhs]; exact hle, hc⟩
      · intro t ht
        simp only [distGo, if_neg hov] at ht
        rcases List.mem_cons.mp ht with h | h
        · subst h; exact h1
        · exact hp t h

theorem mergeGo_invariant : ∀ (l : List Turn) (cur : Turn),
    List.Chain' (fun a b => a.start < b.start) (cur :: l) →
    List.Chain' (fun a b => a.stop ≤ b.stop) (cur :: l) →
    posDur (cur :: l) →
    List.Chain' (fun a b => a.start < b.start) (mergeGo cur l) ∧
    List.Chain' (fun a b => a.stop ≤ b.stop) (mergeGo cur l) ∧
    posDur (mergeGo cur l) ∧
    ∃ h tl, mergeGo cur l = h :: tl ∧ h.start = cur.start ∧ cur.stop ≤ h.stop := by
  intro l
  induction l with
  | nil =>
    intro cur _ _ hdur
    refine ⟨by simp [mergeGo], by simp [mergeGo], ?_, cur, [], rfl, rfl, le_refl _⟩
    intro t ht
    simp [mergeGo] at ht
    subst ht
    exact hdur t (by simp)
  | cons t2 rest ih =>
    intro cur hsort hends hdur
    have hst : cur.start < t2.start := (List.chain'_cons.mp hsort).1
    have hsp : cur.stop ≤ t2.stop := (List.chain'_cons.mp hends).1
    have hsort2 : List.Chain' (fun a b => a.start < b.start) (t2 :: rest) := hsort.tail
    have hends2 : List.Chain' (fun a b => a.stop ≤ b.stop) (t2 :: rest) := hends.tail
    have hdur2 : posDur (t2 :: rest) := fun t ht => hdur t (by simp [ht])
    by_cases hm : cur.spkr = t2.spkr ∧ t2.start ≤ cur.stop
    · set cur2 : Turn :=
        { cur with start := min cur.start t2.start, stop := max cur.stop t2.stop } with hc2
      have hc2s : cur2.start = cur.start := by
        simp [hc2, min_eq_left (le_of_lt hst)]
      have hc2e : cur2.stop = t2.stop := by
        simp [hc2, max_eq_right hsp]
      have hsort3 : List.Chain' (fun a b => a.start < b.start) (cur2 :: rest) := by
        cases rest with
        | nil => simp
        | cons t3 rest2 =>
          refine List.chain'_cons.mpr ⟨?_, hsort2.tail⟩
          rw [hc2s]
          exact lt_trans hst (List.chain'_cons.mp hsort2).1
      have hends3 : List.Chain' (fun a b => a.stop ≤ b.stop) (cur2 :: rest) := by
        cases rest with
        | nil => simp
        | cons t3 rest2 =>
          refine List.chain'_cons.mpr ⟨?_, hends2.tail⟩
          rw [hc2e]
          exact (List.chain'_cons.mp hends2).1
      have hdur3 : posDur (cur2 :: rest) := by
        intro t ht
        rcases List.mem_cons.mp ht with h | h
        · subst h
          rw [hc2s, hc2e]
          exact lt_of_lt_of_le (hdur cur (by simp)) hsp
        · exact hdur2 t (by simp [h])
      obtain ⟨o1, o2, o3, hh, htl, heq, hhs, hhe⟩ := ih cur2 hsort3 hends3 hdur3
      have hout : mergeGo cur (t2 :: rest) = mergeGo cur2 rest := by
        simp only [mergeGo]
        rw [if_pos hm, hc2]
      refine ⟨by rw [hout]; exact o1, by rw [hout]; exact o2, by rw [hout]; exact o3,
        hh, htl, by rw [hout]; exact heq, by rw [hhs, hc2s], ?_⟩
      calc cur.stop ≤ t2.stop := hsp
        _ = cur2.stop := hc2e.symm
        _ ≤ hh.stop := hhe
    · obtain ⟨o1, o2, o3, hh, htl, heq, hhs, hhe⟩ := ih t2 hsort2 hends2 hdur2
      have hout : mergeGo cur (t2 :: rest) = cur :: mergeGo t2 rest := by
        simp [mergeGo, hm]
      refine ⟨?_, ?_, ?_, cur, mergeGo t2 rest, hout, rfl, le_refl _⟩
      · rw [hout, heq]
        rw [heq] at o1
        exact List.chain'_cons.mpr ⟨by rw [hhs]; exact hst, o1⟩
      · rw [hout, heq]
        rw [heq] at o2
        exact List.chain'_cons.mpr ⟨le_trans hsp hhe, o2⟩
      · rw [hout]
        intro t ht
        rcases List.mem_cons.mp ht with h | h
        · subst h; exact hdur t (by simp)
        · exact o3 t h

theorem chain_stop_start_all : ∀ (l : List Turn) (a : Turn),
    List.Chain' (fun x y => x.stop ≤ y.start) (a :: l) → posDur l →
    ∀ b ∈ l, a.stop ≤ b.start := by
  intro l
  induction l with
  | nil => intro a _ _ b hb; simp at hb
  | cons c t2 ih =>
    intro a hch hdur b hb
    have hac : a.stop ≤ c.start := (List.chain'_cons.mp hch).1
    rcases List.mem_cons.mp hb with h | h
    · subst h; exact hac
    · have hcb : c.stop ≤ b.start :=
        ih c hch.tail (fun t ht => hdur t (by simp [ht])) b h
      have hcd : c.start < c.stop := hdur c (by simp)
      linarith

theorem chain_pairwise : ∀ l : List Turn,
    List.Chain' (fun x y => x.stop ≤ y.start) l → posDur l →
    List.Pairwise (fun x y => x.stop ≤ y.start) l := by
  intro l
  induction l with
  | nil => intro _ _; exact List.Pairwise.nil
  | cons a t ih =>
    intro hch hdur
    refine List.Pairwise.cons ?_ (ih hch.tail (fun t2 ht => hdur t2 (by simp [ht])))
    exact chain_stop_start_all t a hch (fun t2 ht => hdur t2 (by simp [ht]))

/-- C2 (amended): after reconciliation (merge of same-speaker adjacent entries
followed by overlap distribution) of an entry list sorted by strictly
increasing start times, with positive durations and non-decreasing end times
(no entry contained in an earlier one), all pairs of distinct output turns
(A, B) satisfy A.end <= B.start or B.end <= A.start — indeed every earlier
turn ends no later than any later turn starts — and the turns are strictly
ordered in time by their start. -/
theorem C2_reconcile_nonoverlap (lol : List Turn)
    (hsort : List.Chain' (fun a b => a.start < b.start) lol)
    (hends : List.Chain' (fun a b => a.stop ≤ b.stop) lol)
    (hdur : posDur lol) :
    List.Pairwise (fun a b => a.stop ≤ b.start ∨ b.stop ≤ a.start) (reconcile lol) ∧
    List.Pairwise (fun a b => a.stop ≤ b.start) (reconcile lol) ∧
    List.Pairwise (fun a b => a.start < b.start) (reconcile lol) := by
  cases lol with
  | nil => simp [reconcile, merge_ssegs_same_speaker, distribute_overlap]
  | cons t rest =>
    obtain ⟨m1, m2, m3, hh, htl, heq, hhs, hhe⟩ := mergeGo_invariant rest t hsort hends hdur
    have hrec : reconcile (t :: rest) = distGo hh htl := by
      rw [reconcile, merge_ssegs_same_speaker, heq, distribute_overlap]
    rw [heq] at m1 m2 m3
    have hhd : hh.start < hh.stop := m3 hh (by simp)
    obtain ⟨dc, dp⟩ := distGo_invariant htl hh hhd m1.tail
      (fun u hu => by
        cases htl with
        | nil => simp at hu
        | cons t3 rest2 =>
          simp at hu; subst hu
          exact (List.chain'_cons.mp m2).1)
      m2.tail
      (fun u hu => m3 u (by simp [hu]))
      (fun u hu => by
        cases htl with
        | nil => simp at hu
        | cons t3 rest2 =>
          simp at hu; subst hu
          have h1 : hh.start < u.start := (List.chain'_cons.mp m1).1
          linarith)
    rw [hrec]
    have hpw : List.Pairwise (fun a b => a.stop ≤ b.start) (distGo hh htl) :=
      chain_pairwise (distGo hh htl) dc dp
    refine ⟨hpw.imp (fun h => Or.inl h), hpw, ?_⟩
    exact List.Pairwise.imp_of_mem (fun ha _ h => lt_of_lt_of_le (dp _ ha) h) hpw

/-- C2 counterexample: on a valid sorted entry list of three distinct-speaker
segments with positive durations, where the first long segment contains the
second (containment), reconciliation produces turns that overlap and are not
strictly ordered: the claim fails as stated, without a no-containment
hypothesis. -/
theorem C2_counterexample :
    ¬ (List.Pairwise (fun a b => a.stop ≤ b.start ∨ b.stop ≤ a.start) (reconcile containEx) ∧
       List.Pairwise (fun a b => a.start < b.start) (reconcile containEx)) := by
  have h : reconcile containEx =
      [⟨"r", 0, 11 / 2, "A"⟩, ⟨"r", 11 / 2, 2, "B"⟩, ⟨"r", 3, 4, "C"⟩] := by
    norm_num +decide [reconcile, merge_ssegs_same_speaker, mergeGo, distribute_overlap,
      distGo, containEx]
  rw [h]
  intro hcon
  have h2 := (List.pairwise_cons.mp hcon.1).1 ⟨"r", 3, 4, "C"⟩ (by simp)
  rcases h2 with h2 | h2 <;> norm_num at h2

/-- C2 witness: on the spec's adjacent-merge scenario the amended invariant
holds concretely. -/
theorem C2_witness :
    List.Pairwise (fun a b => a.stop ≤ b.start ∨ b.stop ≤ a.start) (reconcile adjEx) ∧
    List.Pairwise (fun a b => a.stop ≤ b.start) (reconcile adjEx) ∧
    List.Pairwise (fun a b => a.start < b.start) (reconcile adjEx) :=
  C2_reconcile_nonoverlap adjEx (by norm_num [adjEx, List.chain'_cons])
    (by norm_num [adjEx, List.chain'_cons]) (by norm_num [posDur, adjEx])

/-- C3: overlap distribution truncates an adjacent overlapping pair of turns
at the midpoint m = (s2 + e1) / 2 of the contested interval, leaves a
non-overlapping adjacent pair untouched, and on the spec's concrete example
the entries (spkrA, 0, 2) and (spkrB, 1, 3) become (spkrA, 0, 3/2) and
(spkrB, 3/2, 3). -/
theorem C3_midpoint_split :
    (∀ t1 t2 : Turn, t2.start < t1.stop →
      distribute_overlap [t1, t2] =
        [{ t1 with stop := (t2.start + t1.stop) / 2 },
         { t2 with start := (t2.start + t1.stop) / 2 }]) ∧
    (∀ t1 t2 : Turn, ¬ t2.start < t1.stop → distribute_overlap [t1, t2] = [t1, t2]) ∧
    reconcile midEx = [⟨"r", 0, 3 / 2, "spkrA"⟩, ⟨"r", 3 / 2, 3, "spkrB"⟩] := by
  refine ⟨?_, ?_, by
    norm_num +decide [reconcile, merge_ssegs_same_speaker, mergeGo, distribute_overlap,
      distGo, midEx]⟩
  · intro t1 t2 hov
    simp [distribute_overlap, distGo, hov]
  · intro t1 t2 hov
    simp [distribute_overlap, distGo, hov]

/-- C3 witness: the midpoint truncation applied at the concrete overlapping
pair of the spec. -/
theorem C3_witness :
    distribute_overlap [(⟨"r", 0, 2, "spkrA"⟩ : Turn), ⟨"r", 1, 3, "spkrB"⟩] =
      [⟨"r", 0, 3 / 2, "spkrA"⟩, ⟨"r", 3 / 2, 3, "spkrB"⟩] := by
  have h := C3_midpoint_split.1 ⟨"r", 0, 2, "spkrA"⟩ ⟨"r", 1, 3, "spkrB"⟩ (by norm_num)
  norm_num at h
  exact h

/-! ## Affinity lemmas -/

theorem zipWith_map_same {α β γ : Type} (f g : α → β) (op : β → β → γ) :
    ∀ l : List α, List.zipWith op (l.map f) (l.map g) = l.map fun x => op (f x) (g x) := by
  intro l
  induction l with
  | nil => rfl
  | cons x xs ih => simp [ih]

theorem getD_map_range {α : Type} (f : ℕ → α) (d : α) (n j : ℕ) :
    ((List.range n).map f).getD j d = if j < n then f j else d := by
  by_cases h : j < n
  · rw [if_pos h, List.getD_eq_getElem?_getD, List.getElem?_map, List.getElem?_range h]
    rfl
  · rw [if_neg h]
    apply List.getD_eq_default
    simpa using le_of_not_lt h

theorem kng_head_length (X : Mat) (k : ℕ) (s : Bool) :
    ((kneighbors_graph X k s).headD []).length = X.length := by
  cases hN : X.length with
  | zero => simp [kneighbors_graph, hN]
  | succ m => simp [kneighbors_graph, hN, List.range_succ_eq_map]

theorem tr_kng (X : Mat) (k : ℕ) (s : Bool) :
    tr (kneighbors_graph X k s) = (List.range X.length).map fun j =>
      (List.range X.length).map fun i => if isNeighbor X s k i j then (1 : ℚ) else 0 := by
  rw [tr, kng_head_length]
  apply List.map_congr_left
  intro j hj
  rw [kneighbors_graph, List.map_map]
  apply List.map_congr_left
  intro i _
  simp only [Function.comp_apply, getD_map_range, List.mem_range.mp hj, if_pos]

theorem affinity_explicit (X : Mat) (k : ℕ) (s : Bool) :
    affinityOf X k s =
      (List.range X.length).map fun i => (List.range X.length).map fun j =>
        (1 / 2) * ((if isNeighbor X s k i j then (1 : ℚ) else 0) +
                   (if isNeighbor X s k j i then (1 : ℚ) else 0)) := by
  rw [affinityOf, tr_kng, matAdd, kneighbors_graph, zipWith_map_same, smul, List.map_map]
  apply List.map_congr_left
  intro i _
  rw [Function.comp_apply, zipWith_map_same, List.map_map]
  rfl

theorem entry_affinity (X : Mat) (k : ℕ) (s : Bool) (i j : ℕ) :
    entry (affinityOf X k s) i j =
      if i < X.length ∧ j < X.length then
        (1 / 2) * ((if isNeighbor X s k i j then (1 : ℚ) else 0) +
                   (if isNeighbor X s k j i then (1 : ℚ) else 0))
      else 0 := by
  rw [affinity_explicit, entry, getD_map_range]
  by_cases hi : i < X.length
  · rw [if_pos hi, getD_map_range]
    by_cases hj : j < X.length
    · simp [hi, hj]
    · simp [hi, hj]
  · simp [hi]

/-- C4: whenever the affinity construction of Spec_Cluster.perform_sc
succeeds, the produced matrix equals 0.5 * (G + Gᵗ) for the directed
k-nearest-neighbor adjacency G; consequently it is symmetric and every entry
lies in [0, 1] (in particular no entry exceeds 1). -/
theorem C4_affinity_half_symmetrized (X : Mat) (k : ℕ) (s : Bool) (A : Mat)
    (h : perform_sc_affinity X k s = Except.ok A) :
    A = smul (1 / 2) (matAdd (kneighbors_graph X k s) (tr (kneighbors_graph X k s))) ∧
    (∀ i j, entry A i j = entry A j i) ∧
    (∀ row ∈ A, ∀ x ∈ row, 0 ≤ x ∧ x ≤ 1) := by
  have hA : A = affinityOf X k s := by
    unfold perform_sc_affinity at h
    split_ifs at h <;> simp_all
  refine ⟨by rw [hA]; rfl, ?_, ?_⟩
  · intro i j
    rw [hA, entry_affinity, entry_affinity]
    by_cases hi : i < X.length <;> by_cases hj : j < X.length <;>
      simp [hi, hj, add_comm]
  · intro row hrow x hx
    rw [hA, affinity_explicit] at hrow
    obtain ⟨i, _, rfl⟩ := List.mem_map.mp hrow
    obtain ⟨j, _, rfl⟩ := List.mem_map.mp hx
    constructor <;> split_ifs <;> norm_num

/-- C4 witness: the affinity construction succeeds on the concrete recording
X1 with one neighbor and satisfies symmetry and the bound. -/
theorem C4_witness :
    (affinityOf X1 1 false =
      smul (1 / 2) (matAdd (kneighbors_graph X1 1 false) (tr (kneighbors_graph X1 1 false)))) ∧
    (∀ i j, entry (affinityOf X1 1 false) i j = entry (affinityOf X1 1 false) j i) ∧
    (∀ row ∈ affinityOf X1 1 false, ∀ x ∈ row, 0 ≤ x ∧ x ≤ 1) :=
  C4_affinity_half_symmetrized X1 1 false (affinityOf X1 1 false)
    (by norm_num [perform_sc_affinity, X1])

/-- C6 (amended): the affinity graph builder fails exactly when the neighbor
count is less than 1 or exceeds the number of available neighbor candidates:
N - 1 candidates when the point itself is excluded (so any N < 2 fails, but so
does neighbors >= N), N candidates when it is included.  Contrary to the
claim, neighbors >= N with self excluded also raises rather than degrading to
a dense affinity. -/
theorem C6_build_failure_iff (X : Mat) (k : ℕ) (s : Bool) :
    isErr (perform_sc_affinity X k s) = true ↔
      (k < 1 ∨ (s = true ∧ X.length < k) ∨ (s = false ∧ X.length < k + 1)) := by
  unfold perform_sc_affinity
  cases s <;> split_ifs <;> simp_all [isErr]

/-- C6 counterexample: with three segments, neighbors = 3 and self excluded,
the neighbor count is at least 1 and at least 2 segments are supplied, yet
the builder raises. -/
theorem C6_counterexample :
    isErr (perform_sc_affinity X1 3 false) = true ∧ ¬ (3 < 1) ∧ 2 ≤ X1.length := by
  refine ⟨?_, by norm_num, by simp [X1]⟩
  simp [perform_sc_affinity, X1, isErr]

/-! ## k-means lemmas -/

theorem argminIdxAux_cases : ∀ (l : List ℚ) (i : ℕ) (b : ℕ × ℚ),
    (argminIdxAux l i b).1 = b.1 ∨ ∃ j, j < l.length ∧ (argminIdxAux l i b).1 = i + j := by
  intro l
  induction l with
  | nil => intro i b; exact Or.inl rfl
  | cons d rest ih =>
    intro i b
    simp only [argminIdxAux]
    rcases ih (i + 1) (if d < b.2 then (i, d) else b) with h | ⟨j, hj, h⟩
    · by_cases hd : d < b.2
      · right
        refine ⟨0, by simp, ?_⟩
        rw [h]
        simp [hd]
      · left
        rw [h]
        simp [hd]
    · right
      refine ⟨j + 1, by simpa using hj, ?_⟩
      rw [h]
      omega

theorem argminIdx_lt (ds : List ℚ) (hne : 0 < ds.length) : argminIdx ds < ds.length := by
  cases ds with
  | nil => simp at hne
  | cons d rest =>
    rw [argminIdx]
    rcases argminIdxAux_cases rest 1 (0, d) with h | ⟨j, hj, h⟩
    · rw [h]; simp
    · rw [h]
      simp only [List.length_cons]
      omega

theorem rotl_length (l : List ℕ) (n : ℕ) : (rotl l n).length = l.length := by
  rcases Nat.eq_zero_or_pos l.length with h0 | hpos
  · have h : l = [] := List.length_eq_zero.mp h0
    subst h; simp [rotl]
  · rw [rotl, List.length_append, List.length_drop, List.length_take,
      Nat.min_eq_left (le_of_lt (Nat.mod_lt _ hpos))]
    have hm := Nat.mod_lt n hpos
    omega

/-- C5: for every nonempty spectral-point matrix (N rows) and random state,
cluster assignment with k = N succeeds and returns a valid labeling (N labels,
each in [0, N)), while cluster assignment with k > N fails with the
ConfigurationError of the spec taxonomy (the ValueError of sklearn). -/
theorem C5_kmeans_boundary (points : Mat) (rng : ℕ) (hN : 0 < points.length) :
    (∃ labels, (k_means points points.length rng).1 = Except.ok labels ∧
      labels.length = points.length ∧ ∀ lab ∈ labels, lab < points.length) ∧
    (∀ k, points.length < k →
      (k_means points k rng).1 =
        Except.error (Err.config "n_samples should be >= n_clusters")) := by
  constructor
  · have hcond : ¬ (points.length = 0 ∨ points.length < points.length) := by omega
    have hk : (k_means points points.length rng).1 =
        Except.ok (points.map fun p => argminIdx
          ((((rotl (List.range points.length) (rng % points.length)).take
            points.length).map fun i => points.getD i []).map fun c => sqDist p c)) := by
      rw [k_means, if_neg hcond]
    refine ⟨_, hk, by simp, ?_⟩
    intro lab hlab
    obtain ⟨p, _, rfl⟩ := List.mem_map.mp hlab
    have hlen : ((((rotl (List.range points.length) (rng % points.length)).take
        points.length).map fun i => points.getD i []).map fun c => sqDist p c).length
        = points.length := by
      simp [rotl_length]
    calc argminIdx _ < _ := argminIdx_lt _ (by rw [hlen]; exact hN)
      _ = points.length := hlen
  · intro k hk
    rw [k_means, if_pos (Or.inr hk)]

/-- C5 witness: on the concrete three-point matrix X1, k = 3 succeeds with a
valid labeling and any k > 3 fails with ConfigurationError. -/
theorem C5_witness :
    (∃ labels, (k_means X1 X1.length 0).1 = Except.ok labels ∧
      labels.length = X1.length ∧ ∀ lab ∈ labels, lab < X1.length) ∧
    (∀ k, X1.length < k →
      (k_means X1 k 0).1 =
        Except.error (Err.config "n_samples should be >= n_clusters")) :=
  C5_kmeans_boundary X1 0 (by simp [X1])

/-! ## Spectral embedding lemmas -/

/-- C7: for every Laplacian and eigensolver oracle and every affinity matrix,
in the normalized-Laplacian case the spectral embedder divides the extracted
eigenvector rows elementwise by the diagonal vector dd returned by the
Laplacian routine BEFORE applying the deterministic sign flip: the returned
embedding is the transposed slice of sign_flip(divide(extracted, dd)). -/
theorem C7_normalized_divides_before_signflip
    (lapF : Mat → Bool → Mat × List ℚ) (eigshF : Mat → ℕ → List ℚ × Mat)
    (adjacency : Mat) (n : ℕ) (drop : Bool) (kk : ℕ) (LL : Mat)
    (hkk : kk = if drop then n + 1 else n)
    (hLL : LL = matNegM (set_diag (lapF adjacency true).1 1 true))
    (hvalid : 0 < kk ∧ kk < LL.length) :
    (spectral_embedding_sb lapF eigshF adjacency n true drop).2 =
      Except.ok (tr (
        if drop then
          ((deterministic_vector_sign_flip
            (divRows (pyRevSliceFrom kk (tr (eigshF LL kk).2))
              (lapF adjacency true).2)).take kk).drop 1
        else
          (deterministic_vector_sign_flip
            (divRows (pyRevSliceFrom kk (tr (eigshF LL kk).2))
              (lapF adjacency true).2)).take kk)) := by
  subst hkk
  subst hLL
  cases drop <;>
    simp only [spectral_embedding_sb, Bool.false_eq_true, if_false, if_true] at hvalid ⊢ <;>
    rw [if_pos hvalid]

/-- C7 witness: the division-before-sign-flip equation at the concrete
laplacian and eigensolver test oracles on a concrete 2-node affinity. -/
theorem C7_witness :
    (spectral_embedding_sb lapTest eigshTest [[0, 1], [1, 0]] 1 true false).2 =
      Except.ok (tr (
        (deterministic_vector_sign_flip
          (divRows (pyRevSliceFrom 1 (tr (eigshTest
            (matNegM (set_diag (lapTest [[0, 1], [1, 0]] true).1 1 true)) 1).2))
            (lapTest [[0, 1], [1, 0]] true).2)).take 1)) := by
  have h := C7_normalized_divides_before_signflip lapTest eigshTest [[0, 1], [1, 0]] 1 false 1
    (matNegM (set_diag (lapTest [[0, 1], [1, 0]] true).1 1 true)) rfl rfl
    (by constructor
        · norm_num
        · simp [lapTest, set_diag, matNegM, mapDiag])
  simpa using h

theorem tr_shape (M : Mat) (a b : ℕ) (hlen : M.length = a) (hrows : ∀ r ∈ M, r.length = b)
    (ha : 0 < a) : (tr M).length = b ∧ ∀ r ∈ tr M, r.length = a := by
  have hhead : (M.headD []).length = b := by
    cases M with
    | nil => rw [← hlen] at ha; simp at ha
    | cons r rest => exact hrows r (by simp)
  constructor
  · rw [tr, List.length_map, List.length_range]
    exact hhead
  · intro r hr
    rw [tr] at hr
    obtain ⟨j, _, rfl⟩ := List.mem_map.mp hr
    simp [hlen]


/-- C8: for every well-shaped oracle pair (the Laplacian routine returns an
N-by-N matrix and a length-N diagonal, the eigensolver an N-by-k eigenvector
matrix), spectral_embedding_sb returns an N-by-n_components embedding matrix;
when drop_first is set it requests k = n_components + 1 eigenvectors from the
solver and drops the leading row of the reversed eigenvector stack, so the
returned matrix still has exactly n_components columns. -/
theorem C8_embedding_shape
    (lapF : Mat → Bool → Mat × List ℚ) (eigshF : Mat → ℕ → List ℚ × Mat)
    (adjacency : Mat) (n N kk : ℕ) (LL : Mat) (norm drop : Bool)
    (hkk : kk = if drop then n + 1 else n)
    (hLL : LL = matNegM (set_diag (lapF adjacency norm).1 1 norm))
    (hN : LL.length = N)
    (hdd : (lapF adjacency norm).2.length = N)
    (hdml : (eigshF LL kk).2.length = N)
    (hdmr : ∀ r ∈ (eigshF LL kk).2, r.length = kk)
    (hn : 0 < n) (hkN : kk < N) :
    ∃ M, (spectral_embedding_sb lapF eigshF adjacency n norm drop).2 = Except.ok M ∧
      M.length = N ∧ (∀ r ∈ M, r.length = n) ∧
      (drop = true → M = tr (((deterministic_vector_sign_flip
        (if norm then
          divRows (pyRevSliceFrom kk (tr (eigshF LL kk).2)) (lapF adjacency norm).2
        else
          pyRevSliceFrom kk (tr (eigshF LL kk).2))).take kk).drop 1)) := by
  have hkpos : 0 < kk := by
    rw [hkk]; cases drop <;> simp <;> omega
  have hNpos : 0 < N := lt_trans hkpos hkN
  obtain ⟨ht1l, ht1r⟩ := tr_shape (eigshF LL kk).2 N kk hdml hdmr hNpos
  set e1 := pyRevSliceFrom kk (tr (eigshF LL kk).2) with he1
  have he1l : e1.length = kk := by
    rw [he1, pyRevSliceFrom, List.length_reverse, List.length_take, ht1l]
    omega
  have he1r : ∀ r ∈ e1, r.length = N := by
    intro r hr
    rw [he1, pyRevSliceFrom] at hr
    exact ht1r r (List.mem_of_mem_take (List.mem_reverse.mp hr))
  set e2 := if norm then divRows e1 (lapF adjacency norm).2 else e1 with he2
  have he2l : e2.length = kk := by
    rw [he2]
    cases norm <;> simp [divRows, he1l]
  have he2r : ∀ r ∈ e2, r.length = N := by
    intro r hr
    rw [he2] at hr
    cases norm with
    | false => exact he1r r (by simpa using hr)
    | true =>
      simp only [if_true, divRows] at hr
      obtain ⟨r0, hr0, rfl⟩ := List.mem_map.mp hr
      rw [List.length_zipWith, he1r r0 hr0, hdd]
      omega
  set e3 := deterministic_vector_sign_flip e2 with he3
  have he3l : e3.length = kk := by
    rw [he3, deterministic_vector_sign_flip, List.length_map, he2l]
  have he3r : ∀ r ∈ e3, r.length = N := by
    intro r hr
    rw [he3, deterministic_vector_sign_flip] at hr
    obtain ⟨r0, hr0, rfl⟩ := List.mem_map.mp hr
    rw [List.length_map]
    exact he2r r0 hr0
  have hres : (spectral_embedding_sb lapF eigshF adjacency n norm drop).2 =
      Except.ok (tr (if drop then (e3.take kk).drop 1 else e3.take kk)) := by
    rw [he3, he2, he1]
    simp only [spectral_embedding_sb]
    rw [← hkk, ← hLL, if_pos ⟨hkpos, by rw [hN]; exact hkN⟩]
    cases drop <;> simp
  have htake : e3.take kk = e3 := List.take_of_length_le (le_of_eq he3l)
  cases drop with
  | false =>
    simp only [Bool.false_eq_true, if_false] at hres hkk
    rw [htake] at hres
    refine ⟨tr e3, hres, (tr_shape e3 kk N he3l he3r hkpos).1, ?_, by simp⟩
    intro r hr
    rw [← hkk]
    exact (tr_shape e3 kk N he3l he3r hkpos).2 r hr
  | true =>
    simp only [if_true] at hres hkk
    have he4l : ((e3.take kk).drop 1).length = n := by
      rw [htake, List.length_drop, he3l, hkk]
      omega
    have he4r : ∀ r ∈ (e3.take kk).drop 1, r.length = N := by
      intro r hr
      rw [htake] at hr
      exact he3r r (List.mem_of_mem_drop hr)
    obtain ⟨hl4, hr4⟩ := tr_shape ((e3.take kk).drop 1) n N he4l he4r hn
    exact ⟨tr ((e3.take kk).drop 1), hres, hl4, hr4, fun _ => rfl⟩

/-- C8 witness: with the test oracles on a concrete 3-node affinity,
drop_first and one requested component, the embedding is 3-by-1. -/
theorem C8_witness :
    ∃ M, (spectral_embedding_sb lapTest eigshTest [[0, 1, 0], [1, 0, 1], [0, 1, 0]]
        1 true true).2 = Except.ok M ∧
      M.length = 3 ∧ (∀ r ∈ M, r.length = 1) ∧
      (true = true → M = tr (((deterministic_vector_sign_flip
        (if true then
          divRows (pyRevSliceFrom 2 (tr (eigshTest
            (matNegM (set_diag (lapTest [[0, 1, 0], [1, 0, 1], [0, 1, 0]] true).1 1 true)) 2).2))
            (lapTest [[0, 1, 0], [1, 0, 1], [0, 1, 0]] true).2
        else
          pyRevSliceFrom 2 (tr (eigshTest
            (matNegM (set_diag (lapTest [[0, 1, 0], [1, 0, 1], [0, 1, 0]] true).1 1 true)) 2).2))).take 2).drop 1)) :=
  C8_embedding_shape lapTest eigshTest [[0, 1, 0], [1, 0, 1], [0, 1, 0]] 1 3 2
    (matNegM (set_diag (lapTest [[0, 1, 0], [1, 0, 1], [0, 1, 0]] true).1 1 true)) true true
    rfl rfl
    (by simp [lapTest, set_diag, matNegM, mapDiag])
    (by simp [lapTest])
    (by simp [eigshTest])
    (by intro r hr; simp [eigshTest] at hr; rcases hr with h | h | h <;> subst h <;> rfl)
    (by norm_num) (by norm_num)

/-- C9: when the affinity graph is not fully connected, the spectral embedder
sets the warning flag, yet the Laplacian construction and eigendecomposition
proceed unchanged: disconnection never produces an error, and whenever the
eigensolver argument check passes an embedding is still returned. -/
theorem C9_disconnected_warns_not_fatal
    (lapF : Mat → Bool → Mat × List ℚ) (eigshF : Mat → ℕ → List ℚ × Mat)
    (adjacency : Mat) (n : ℕ) (norm drop : Bool)
    (hconn : graph_is_connected adjacency = false) :
    (spectral_embedding_sb lapF eigshF adjacency n norm drop).1 = true ∧
    ((0 < (if drop then n + 1 else n) ∧ (if drop then n + 1 else n) <
        (matNegM (set_diag (lapF adjacency norm).1 1 norm)).length) →
      ∃ M, (spectral_embedding_sb lapF eigshF adjacency n norm drop).2 = Except.ok M) := by
  constructor
  · simp only [spectral_embedding_sb, hconn]
    split_ifs <;> simp
  · intro hvalid
    simp only [spectral_embedding_sb]
    rw [if_pos hvalid]
    split_ifs <;> simp

/-- C9 witness: on a concrete 2-node affinity with no edges (disconnected),
the embedder warns and still returns an embedding. -/
theorem C9_witness :
    (spectral_embedding_sb lapTest eigshTest [[0, 0], [0, 0]] 1 true false).1 = true ∧
    ∃ M, (spectral_embedding_sb lapTest eigshTest [[0, 0], [0, 0]] 1 true false).2 =
      Except.ok M :=
  ⟨(C9_disconnected_warns_not_fatal lapTest eigshTest [[0, 0], [0, 0]] 1 true false
      (by decide)).1,
   (C9_disconnected_warns_not_fatal lapTest eigshTest [[0, 0], [0, 0]] 1 true false
      (by decide)).2
     (by simp [lapTest, set_diag, matNegM, mapDiag])⟩

/-! ## Label-to-boundary lemmas -/

theorem labelsGo_length : ∀ (ps : List (ℕ × String)) (rid : String),
    (labelsGo rid ps).length = ps.length := by
  intro ps
  induction ps with
  | nil => intro rid; rfl
  | cons p rest ih => intro rid; simp [labelsGo, ih]

theorem zip_getD : ∀ (l1 : List ℕ) (l2 : List String) (i : ℕ),
    i < l1.length → i < l2.length →
    (l1.zip l2).getD i (0, "") = (l1.getD i 0, l2.getD i "") := by
  intro l1
  induction l1 with
  | nil => intro l2 i h1 _; simp at h1
  | cons a t ih =>
    intro l2 i h1 h2
    cases l2 with
    | nil => simp at h2
    | cons b t2 =>
      cases i with
      | zero => simp [List.zip_cons_cons]
      | succ j =>
        simp only [List.zip_cons_cons, List.getD_cons_succ]
        exact ih t2 j (by simpa using h1) (by simpa using h2)

theorem labelsGo_later_spkr : ∀ (ps : List (ℕ × String)) (rid : String) (i : ℕ),
    i + 1 < ps.length →
    ((labelsGo rid ps).getD (i + 1) ⟨"", 0, 0, ""⟩).spkr =
      (pyRsplit2 (ps.getD i (0, "")).2).headD "" ++ "_" ++
        toString ((ps.getD (i + 1) (0, "")).1) := by
  intro ps
  induction ps with
  | nil => intro rid i h; simp at h
  | cons p rest ih =>
    intro rid i h
    cases i with
    | zero =>
      cases rest with
      | nil => simp at h
      | cons q rest2 => simp [labelsGo]
    | succ i2 =>
      have h2 : i2 + 1 < rest.length := by simpa using h
      simp only [labelsGo, List.getD_cons_succ]
      exact ih _ i2 h2

/-- C10: in the label-to-boundary loop of do_spec_clustering the Python
variable rec_id is reassigned on every iteration from rsplit("_", 2) of that
iteration's sub-segment identifier, AFTER the speaker id of the entry has been
built from the previous value: so the speaker id of the first entry is
prefixed with the caller-supplied rec_id, while the speaker id of every later
entry i is prefixed with the recording id parsed from sub-segment identifier
i - 1. -/
theorem C10_recid_reassignment (rid : String) (labels : List ℕ) (subsegs : List String)
    (hlen : labels.length = subsegs.length) :
    (0 < labels.length →
      ((labelsToBoundaries rid labels subsegs).getD 0 ⟨"", 0, 0, ""⟩).spkr =
        rid ++ "_" ++ toString (labels.getD 0 0)) ∧
    (∀ i, i + 1 < labels.length →
      ((labelsToBoundaries rid labels subsegs).getD (i + 1) ⟨"", 0, 0, ""⟩).spkr =
        (pyRsplit2 (subsegs.getD i "")).headD "" ++ "_" ++
          toString (labels.getD (i + 1) 0)) := by
  constructor
  · intro h0
    cases labels with
    | nil => simp at h0
    | cons l rest =>
      cases subsegs with
      | nil => simp at hlen
      | cons s rest2 => simp [labelsToBoundaries, labelsGo]
  · intro i hi
    have hzl : (labels.zip subsegs).length = labels.length := by
      rw [List.length_zip, hlen, Nat.min_self]
    rw [labelsToBoundaries, labelsGo_later_spkr (labels.zip subsegs) rid i (by omega),
      zip_getD labels subsegs i (by omega) (by rw [← hlen]; omega),
      zip_getD labels subsegs (i + 1) hi (by rw [← hlen]; exact hi)]

/-! ## Full-pipeline determinism analysis -/

/-- C1: the seed passed to the Spec_Cluster constructor is ignored by
perform_sc, so the k-means initialization draws from the ambient global random
state, which the first run advances; with the same seed, the same embeddings,
the same k and the same neighbor count, the second run of do_spec_clustering
in the same process can produce a different turn list (here: permuted cluster
labels change the merge structure). -/
theorem C1_second_run_differs :
    (do_spec_clustering lapTest eigshTest X1 subs1 "rec" 2 1234 1 false
        (do_spec_clustering lapTest eigshTest X1 subs1 "rec" 2 1234 1 false 0).2).1 ≠
      (do_spec_clustering lapTest eigshTest X1 subs1 "rec" 2 1234 1 false 0).1 := by
  have haff : perform_sc_affinity X1 1 false = Except.ok (affinityOf X1 1 false) := by
    norm_num [perform_sc_affinity, X1]
  have hafflen : (affinityOf X1 1 false).length = 3 := by
    rw [affinityOf, smul, List.length_map, matAdd, List.length_zipWith]
    rw [tr, List.length_map, List.length_range, kng_head_length]
    simp [kneighbors_graph, X1]
  have hlaplen :
      (matNegM (set_diag (lapTest (affinityOf X1 1 false) true).1 1 true)).length = 3 := by
    simp [matNegM, set_diag, mapDiag, lapTest, hafflen]
  have hmaps :
      (spectral_embedding_sb lapTest eigshTest (affinityOf X1 1 false) 2 true false).2 =
        Except.ok [[0, 0], [10, 1], [10, 2]] := by
    simp only [spectral_embedding_sb]
    rw [if_pos ⟨by norm_num, by rw [hlaplen]; norm_num⟩]
    norm_num [hafflen, eigshTest, lapTest, tr, pyRevSliceFrom, divRows,
      deterministic_vector_sign_flip, maxAbsEntry, sgn, List.range_succ,
      List.replicate_succ]
  have hsc : ∀ rng, spectral_clustering_sb lapTest eigshTest (affinityOf X1 1 false) 2 rng =
      k_means [[0, 0], [10, 1], [10, 2]] 2 rng := by
    intro rng
    rw [spectral_clustering_sb, hmaps]
  have hk1 : k_means [[0, 0], [10, 1], [10, 2]] 2 0 = (Except.ok [0, 1, 1], 10) := by
    norm_num [k_means, rotl, List.range_succ, argminIdx, argminIdxAux, sqDist]
  have hk2 : k_means [[0, 0], [10, 1], [10, 2]] 2 10 = (Except.ok [0, 0, 1], 20) := by
    norm_num [k_means, rotl, List.range_succ, argminIdx, argminIdxAux, sqDist]
  have hlolq1 : labelsToBoundaries "rec" [0, 1, 1] subs1 =
      [⟨"rec", 0, 1, "rec_0"⟩, ⟨"rec", 1, 2, "rec_1"⟩, ⟨"rec", 2, 3, "rec_1"⟩] := by
    have h : labelsToBoundaries "rec" [0, 1, 1] subs1 =
        [⟨"rec", ((0 : ℕ) : ℚ), ((1 : ℕ) : ℚ), "rec_0"⟩,
         ⟨"rec", ((1 : ℕ) : ℚ), ((2 : ℕ) : ℚ), "rec_1"⟩,
         ⟨"rec", ((2 : ℕ) : ℚ), ((3 : ℕ) : ℚ), "rec_1"⟩] := rfl
    rw [h]
    norm_num
  have hlolq2 : labelsToBoundaries "rec" [0, 0, 1] subs1 =
      [⟨"rec", 0, 1, "rec_0"⟩, ⟨"rec", 1, 2, "rec_0"⟩, ⟨"rec", 2, 3, "rec_1"⟩] := by
    have h : labelsToBoundaries "rec" [0, 0, 1] subs1 =
        [⟨"rec", ((0 : ℕ) : ℚ), ((1 : ℕ) : ℚ), "rec_0"⟩,
         ⟨"rec", ((1 : ℕ) : ℚ), ((2 : ℕ) : ℚ), "rec_0"⟩,
         ⟨"rec", ((2 : ℕ) : ℚ), ((3 : ℕ) : ℚ), "rec_1"⟩] := rfl
    rw [h]
    norm_num
  have hsort1 : sortByStart [(⟨"rec", 0, 1, "rec_0"⟩ : Turn), ⟨"rec", 1, 2, "rec_1"⟩,
      ⟨"rec", 2, 3, "rec_1"⟩] =
      [⟨"rec", 0, 1, "rec_0"⟩, ⟨"rec", 1, 2, "rec_1"⟩, ⟨"rec", 2, 3, "rec_1"⟩] := by
    norm_num [sortByStart, insertByStart]
  have hsort2 : sortByStart [(⟨"rec", 0, 1, "rec_0"⟩ : Turn), ⟨"rec", 1, 2, "rec_0"⟩,
      ⟨"rec", 2, 3, "rec_1"⟩] =
      [⟨"rec", 0, 1, "rec_0"⟩, ⟨"rec", 1, 2, "rec_0"⟩, ⟨"rec", 2, 3, "rec_1"⟩] := by
    norm_num [sortByStart, insertByStart]
  have hrec1 : reconcile [(⟨"rec", 0, 1, "rec_0"⟩ : Turn), ⟨"rec", 1, 2, "rec_1"⟩,
      ⟨"rec", 2, 3, "rec_1"⟩] = [⟨"rec", 0, 1, "rec_0"⟩, ⟨"rec", 1, 3, "rec_1"⟩] := by
    norm_num +decide [reconcile, merge_ssegs_same_speaker, mergeGo, distribute_overlap, distGo]
  have hrec2 : reconcile [(⟨"rec", 0, 1, "rec_0"⟩ : Turn), ⟨"rec", 1, 2, "rec_0"⟩,
      ⟨"rec", 2, 3, "rec_1"⟩] = [⟨"rec", 0, 2, "rec_0"⟩, ⟨"rec", 2, 3, "rec_1"⟩] := by
    norm_num +decide [reconcile, merge_ssegs_same_speaker, mergeGo, distribute_overlap, distGo]
  have hrun1 : do_spec_clustering lapTest eigshTest X1 subs1 "rec" 2 1234 1 false 0 =
      (Except.ok [⟨"rec", 0, 1, "rec_0"⟩, ⟨"rec", 1, 3, "rec_1"⟩], 10) := by
    simp only [do_spec_clustering, haff, hsc, hk1, hlolq1, hsort1, hrec1]
  have hrun2 : do_spec_clustering lapTest eigshTest X1 subs1 "rec" 2 1234 1 false 10 =
      (Except.ok [⟨"rec", 0, 2, "rec_0"⟩, ⟨"rec", 2, 3, "rec_1"⟩], 20) := by
    simp only [do_spec_clustering, haff, hsc, hk2, hlolq2, hsort2, hrec2]
  rw [hrun1]
  simp only []
  rw [hrun2]
  simp only [ne_eq, Prod.fst]
  intro hcon
  rw [Except.ok.injEq] at hcon
  have h0 := congrArg (fun l => (l.getD 0 ⟨"", 0, 0, ""⟩).stop) hcon
  norm_num at h0

/-- C10 witness: with caller rec_id recA and sub-segment identifiers starting
with recB, the first entry's speaker id is prefixed with recA while the second
entry's speaker id is prefixed with the recording id parsed from the first
sub-segment identifier (recB). -/
theorem C10_witness :
    ((labelsToBoundaries "recA" [5, 7] ["recB_0_1", "recB_1_2"]).getD 0
      ⟨"", 0, 0, ""⟩).spkr = "recA" ++ "_" ++ toString (([5, 7] : List ℕ).getD 0 0) ∧
    ((labelsToBoundaries "recA" [5, 7] ["recB_0_1", "recB_1_2"]).getD 1
      ⟨"", 0, 0, ""⟩).spkr =
      (pyRsplit2 ((["recB_0_1", "recB_1_2"] : List String).getD 0 "")).headD "" ++ "_" ++
        toString (([5, 7] : List ℕ).getD 1 0) := by
  have h := C10_recid_reassignment "recA" [5, 7] ["recB_0_1", "recB_1_2"] rfl
  exact ⟨h.1 (by norm_num), h.2 0 (by norm_num)⟩
